import Mathlib

/-!
Verification development for the FinancialIntelligence retrieval pipeline.

Text is modelled as `List Char` (Python `str` operations become list
operations, with `str.lower` modelled as the character-wise `Char.toLower`).
Floating-point vectors are modelled over `ℝ`; numpy arrays of embeddings
become lists of functions `Fin n → ℝ`, so all vectors of one session share the
dimension `n`, which is the pairing invariant the application maintains.
File input and the sentence-transformer model are external effects: the three
format-specific processors and the query embedder are parameters of the
functions that call them.  Pure Python code that cannot raise is modelled by
total functions; a `try/except` whose body can raise is modelled with
`Except`.
-/

/-! ### utils/generator.py -/

/-- Character-wise lowercasing, the model of Python `str.lower()`. -/
def toLowerStr (s : List Char) : List Char :=
  s.map Char.toLower

/-- Python `str.strip()`: drop whitespace from both ends. -/
def pyStrip (s : List Char) : List Char :=
  ((s.dropWhile Char.isWhitespace).reverse.dropWhile Char.isWhitespace).reverse

/-- Python `sub in s` substring test. -/
def containsSub (needle hay : List Char) : Bool :=
  hay.tails.any (fun t => needle.isPrefixOf t)

/-- Helper for `splitWs`: accumulates the current word (reversed) while
scanning. -/
def splitWsAux : List Char → List Char → List (List Char)
  | [], acc => if acc = [] then [] else [acc.reverse]
  | c :: rest, acc =>
    if c.isWhitespace then
      (if acc = [] then splitWsAux rest [] else acc.reverse :: splitWsAux rest [])
    else splitWsAux rest (c :: acc)

/-- Python `str.split()` with no separator: split on whitespace runs,
dropping empty pieces. -/
def splitWs (s : List Char) : List (List Char) :=
  splitWsAux s []

/-- Python `str.split(". ")`: left-to-right non-overlapping split on the
two-character separator `". "`. -/
def splitDotSpace : List Char → List (List Char)
  | [] => [[]]
  | '.' :: ' ' :: rest => [] :: splitDotSpace rest
  | c :: rest =>
    match splitDotSpace rest with
    | [] => [[c]]
    | s :: ss => (c :: s) :: ss

/-- The stopword set of `generate_answer` (generator.py lines 30-33). -/
def stopwords : List (List Char) :=
  ["what".toList, "is".toList, "are".toList, "the".toList, "a".toList,
   "an".toList, "of".toList, "in".toList, "for".toList, "to".toList,
   "and".toList, "with".toList, "on".toList, "by".toList, "from".toList,
   "about".toList, "as".toList, "how".toList, "much".toList, "many".toList,
   "where".toList, "when".toList, "which".toList, "who".toList,
   "whom".toList, "whose".toList, "why".toList, "can".toList,
   "could".toList, "did".toList, "do".toList, "does".toList, "has".toList,
   "have".toList, "had".toList, "been".toList, "being".toList,
   "was".toList, "were".toList, "will".toList]

/-- Keyword extraction of `generate_answer`: lowercase the query, split on
whitespace, drop stopwords. -/
def keywordsOf (query : List Char) : List (List Char) :=
  (splitWs (toLowerStr query)).filter (fun w => !(stopwords.contains w))

/-- Whether any keyword occurs (as a substring) in the lowercased text —
the `any(keyword in text.lower() ...)` test of generator.py. -/
def kwAny (keywords : List (List Char)) (text : List Char) : Bool :=
  keywords.any (fun kw => containsSub kw (toLowerStr text))

/-- One step of the sentence-collection loop of `generate_answer`
(generator.py lines 49-52): append the sentence when it contains a keyword,
is not already collected, and its length exceeds 10. -/
def keepSentence (keywords : List (List Char)) (acc : List (List Char))
    (sentence : List Char) : List (List Char) :=
  if kwAny keywords sentence && !(acc.contains sentence) &&
      decide (10 < sentence.length) then
    acc ++ [sentence]
  else acc

/-- The `relevant_sentences` accumulation of `generate_answer` (generator.py
lines 39-52), exactly as coded: a context is only split into sentences when
the whole context contains some keyword. -/
def collectRelevant (keywords : List (List Char)) :
    List (List Char) → List (List Char) → List (List Char)
  | acc, [] => acc
  | acc, context :: rest =>
    collectRelevant keywords
      (if kwAny keywords context then
        (splitDotSpace context).foldl (keepSentence keywords) acc
      else acc)
      rest

/-- Modelled from the spec, for comparison with `collectRelevant`: scan every
sentence of every context in order and keep it when it contains a keyword, is
not a duplicate of an already-kept sentence, and is long enough — with no
outer per-context filter. -/
def relevantSpec (keywords : List (List Char)) (contexts : List (List Char)) :
    List (List Char) :=
  contexts.foldl
    (fun acc context => (splitDotSpace context).foldl (keepSentence keywords) acc)
    []

/-- Sentence cleanup of `generate_answer` (generator.py lines 64-66): strip,
then ensure a trailing period. -/
def cleanSentence (s : List Char) : List Char :=
  if (pyStrip s).getLast? = some '.' then pyStrip s else pyStrip s ++ [ '.']

/-- The fixed insufficient-information message of generator.py line 21. -/
def insufficientMsg : List Char :=
  "I don".toList ++ [ Char.ofNat 39] ++
    "t have sufficient information in the document to answer this question.".toList

/-- The answer prefix of generator.py line 56. -/
def basedMsg : List Char :=
  "Based on the financial document, ".toList

/-- The fallback prefix of generator.py line 71. -/
def foundMsg : List Char :=
  "I found the following information in the document that might help answer your question: ".toList

/-- `generate_answer(query, contexts)` of generator.py.  The body is pure,
so the `except` clause at lines 75-77 is unreachable and the function is
total. -/
def generate_answer (query : List Char) (contexts : List (List Char)) :
    List Char :=
  if contexts = [] then insufficientMsg
  else
    if collectRelevant (keywordsOf query) [] contexts = [] then
      foundMsg ++ contexts.headD []
    else
      basedMsg ++
        List.intercalate [ ' ']
          (((collectRelevant (keywordsOf query) [] contexts).take 5).map cleanSentence)

/-! ### utils/document_processor.py — extension dispatch -/

/-- The extension part of `os.path.splitext(path)`: everything from the last
dot of the basename, where leading dots of the basename do not count
(CPython posixpath semantics with separator `/`). -/
def splitext_ext (path : List Char) : List Char :=
  if ((path.reverse.takeWhile (fun c => c != '/')).reverse.dropWhile
      (fun c => c == '.')).any (fun c => c == '.') then
    '.' ::
      (((path.reverse.takeWhile (fun c => c != '/')).reverse.dropWhile
        (fun c => c == '.')).reverse.takeWhile (fun c => c != '.')).reverse
  else []

/-- Python exceptions that flow through `process_document`.
`unsupportedFormat` models the `ValueError` raised at document_processor.py
line 33. -/
inductive PyError
  | unsupportedFormat (ext : List Char)
  | other (msg : List Char)
deriving DecidableEq

/-- The `try` body of `process_document` (document_processor.py lines 26-33):
dispatch on the lowercased extension; any other extension raises.  The three
format processors are external effects and are passed in. -/
def process_document_body
    (proc_pdf proc_csv proc_excel : List Char → Except PyError (List (List Char)))
    (file_path : List Char) : Except PyError (List (List Char)) :=
  if toLowerStr (splitext_ext file_path) = ".pdf".toList then proc_pdf file_path
  else if toLowerStr (splitext_ext file_path) = ".csv".toList then proc_csv file_path
  else if toLowerStr (splitext_ext file_path) = ".xlsx".toList ∨
      toLowerStr (splitext_ext file_path) = ".xls".toList then proc_excel file_path
  else Except.error (PyError.unsupportedFormat (toLowerStr (splitext_ext file_path)))

/-- `process_document(file_path)` of document_processor.py lines 14-36: the
catch-all `except` logs any error and returns the empty chunk list. -/
def process_document
    (proc_pdf proc_csv proc_excel : List Char → Except PyError (List (List Char)))
    (file_path : List Char) : List (List Char) :=
  match process_document_body proc_pdf proc_csv proc_excel file_path with
  | Except.ok chunks => chunks
  | Except.error _ => []

/-! ### utils/document_processor.py — prose chunking (process_pdf) -/

/-- Python `text.rfind(c1 + c2, start, stop)` for a two-character needle:
the largest `i` with `start ≤ i`, `i + 2 ≤ stop` and the two characters at
`i`, `i + 1`; `none` models the `-1` result. -/
def rfind2 (text : List Char) (c1 c2 : Char) (start stop : ℕ) : Option ℕ :=
  ((List.range stop).filter (fun i =>
    decide (start ≤ i) && decide (i + 2 ≤ stop) &&
    (text.getD i ' ' == c1) && (text.getD (i + 1) ' ' == c2))).max?

/-- Maximum of two Python ints where `none` stands for the sentinel `-1`. -/
def optMax : Option ℕ → Option ℕ → Option ℕ
  | none, b => b
  | some x, none => some x
  | some x, some y => some (max x y)

/-- The sentence-boundary fallback of `process_pdf` (document_processor.py
lines 86-93): the rightmost of the three sentence-end positions, used only
when it lies in the back half of the window. -/
def sentFallback (text : List Char) (chunk_size current_pos cend : ℕ) : ℕ :=
  match optMax (optMax (rfind2 text '.' ' ' current_pos cend)
      (rfind2 text '?' ' ' current_pos cend))
      (rfind2 text '!' ' ' current_pos cend) with
  | some p => if 2 * p > 2 * current_pos + chunk_size then p + 2 else cend
  | none => cend

/-- The chunk-end choice of `process_pdf` (document_processor.py lines
77-93).  The comparison `p > current_pos + chunk_size / 2` with Python float
division is rendered as `2 * p > 2 * current_pos + chunk_size`. -/
def chunkEnd (text : List Char) (chunk_size current_pos : ℕ) : ℕ :=
  if min (current_pos + chunk_size) text.length < text.length then
    match rfind2 text '\n' '\n' current_pos
        (min (current_pos + chunk_size) text.length) with
    | some p =>
      if 2 * p > 2 * current_pos + chunk_size then p + 2
      else sentFallback text chunk_size current_pos
        (min (current_pos + chunk_size) text.length)
    | none => sentFallback text chunk_size current_pos
        (min (current_pos + chunk_size) text.length)
  else min (current_pos + chunk_size) text.length

/-- The window advance of `process_pdf` (document_processor.py line 101):
`max(current_pos + chunk_size - overlap, current_pos + 1)`, computed over ℤ
as in Python and clamped back to ℕ (the maximum is always ≥ current_pos + 1,
so the clamp is exact). -/
def nextPos (chunk_size overlap current_pos : ℕ) : ℕ :=
  (max ((current_pos : ℤ) + chunk_size - overlap) ((current_pos : ℤ) + 1)).toNat

/-- The sliding-window loop of `process_pdf` (document_processor.py lines
72-105) on already-extracted, already-cleaned text: slice the window, strip
it, keep it when non-empty, advance. -/
def process_pdf_chunks (text : List Char) (chunk_size overlap current_pos : ℕ) :
    List (List Char) :=
  if _h : current_pos < text.length then
    if pyStrip ((text.drop current_pos).take
        (chunkEnd text chunk_size current_pos - current_pos)) = [] then
      process_pdf_chunks text chunk_size overlap (nextPos chunk_size overlap current_pos)
    else
      pyStrip ((text.drop current_pos).take
        (chunkEnd text chunk_size current_pos - current_pos)) ::
        process_pdf_chunks text chunk_size overlap (nextPos chunk_size overlap current_pos)
  else []
termination_by text.length - current_pos
decreasing_by
  all_goals
    have hlt : current_pos < nextPos chunk_size overlap current_pos := by
      unfold nextPos; omega
    omega

/-- Two given characters sit at position `p` of the text (within bounds). -/
def pairAt (text : List Char) (p : ℕ) (c1 c2 : Char) : Prop :=
  p + 2 ≤ text.length ∧ text.getD p ' ' = c1 ∧ text.getD (p + 1) ' ' = c2

/-- Position `p` starts a paragraph break or one of the three sentence
breaks that `process_pdf` looks for. -/
def isBreakAt (text : List Char) (p : ℕ) : Prop :=
  pairAt text p '\n' '\n' ∨ pairAt text p '.' ' ' ∨
    pairAt text p '?' ' ' ∨ pairAt text p '!' ' '

/-! ### utils/document_processor.py — tabular chunking -/

/-- A pandas DataFrame after `fillna('')`: column names, the stringified
dtypes (`str(dtype)`), and the rows as string cells. -/
structure DataFrame where
  cols : List (List Char)
  dtypes : List (List Char)
  rows : List (List (List Char))

/-- One CSV field under pandas `to_csv` minimal quoting: quote the field if
it holds a comma, a quote, or a line break, doubling inner quotes. -/
def csvField (s : List Char) : List Char :=
  if s.any (fun c => c == ',' || c == '"' || c == '\n' || c == '\r') then
    ( '"' :: s.flatMap (fun c => if c == '"' then [ '"', '"'] else [c])) ++ [ '"']
  else s

/-- One CSV line: comma-joined fields plus a newline. -/
def csvLine (row : List (List Char)) : List Char :=
  List.intercalate [ ','] (row.map csvField) ++ [ '\n']

/-- `DataFrame.to_csv(index=False)`: header line then one line per row. -/
def df_to_csv (cols : List (List Char)) (rows : List (List (List Char))) :
    List Char :=
  csvLine cols ++ (rows.map csvLine).flatten

/-- The start indices `range(0, total_rows, m)` of the row-group loop
(document_processor.py line 186), for a positive step `m` (Python raises on
step 0; the claims only concern `m ≥ 1`). -/
def rowGroupStarts (total_rows m : ℕ) : List ℕ :=
  (List.range ((total_rows + m - 1) / m)).map (fun j => j * m)

/-- The schema-summary chunk of `dataframe_to_chunks` (document_processor.py
lines 173-183). -/
def schemaChunk (df : DataFrame) (sheet_name : Option (List Char)) : List Char :=
  "Schema Information:\n".toList ++
    (match sheet_name with
     | some s => "Sheet: ".toList ++ s ++ [ '\n']
     | none => []) ++
    "Total Rows: ".toList ++ (Nat.repr df.rows.length).toList ++ [ '\n'] ++
    "Columns:\n".toList ++
    ((df.cols.zip df.dtypes).map
      (fun p => "- ".toList ++ p.1 ++ " (".toList ++ p.2 ++ ")\n".toList)).flatten

/-- One row-group chunk of `dataframe_to_chunks` (document_processor.py
lines 186-201): row-range tag, optional sheet tag, and the serialized
slice `df.iloc[i : min (i + m) total]`. -/
def rowChunk (df : DataFrame) (m : ℕ) (sheet_name : Option (List Char))
    (i : ℕ) : List Char :=
  "Data Rows ".toList ++ (Nat.repr (i + 1)).toList ++ " to ".toList ++
    (Nat.repr (min (i + m) df.rows.length)).toList ++
    (match sheet_name with
     | some s => " (Sheet: ".toList ++ s ++ ")".toList
     | none => []) ++
    ":\n".toList ++ df_to_csv df.cols ((df.rows.drop i).take m)

/-- `dataframe_to_chunks(df, max_rows_per_chunk, sheet_name)` of
document_processor.py lines 149-203: the schema chunk followed by the
row-group chunks. -/
def dataframe_to_chunks (df : DataFrame) (m : ℕ)
    (sheet_name : Option (List Char)) : List (List Char) :=
  schemaChunk df sheet_name ::
    (rowGroupStarts df.rows.length m).map (rowChunk df m sheet_name)

/-! ### utils/embeddings.py -/

/-- `np.dot(v1, v2)` for equal-dimension vectors. -/
noncomputable def np_dot {n : ℕ} (v1 v2 : Fin n → ℝ) : ℝ :=
  ∑ i, v1 i * v2 i

open Classical in
/-- `cosine_similarity(v1, v2)` of embeddings.py lines 60-82: 0.0 when
either vector is all-zero or has zero norm, else the normalized dot
product.  `np.linalg.norm v` is `Real.sqrt (np_dot v v)`. -/
noncomputable def cosine_similarity {n : ℕ} (v1 v2 : Fin n → ℝ) : ℝ :=
  if (∀ i, v1 i = 0) ∨ (∀ i, v2 i = 0) then 0
  else if Real.sqrt (np_dot v1 v1) = 0 ∨ Real.sqrt (np_dot v2 v2) = 0 then 0
  else np_dot v1 v2 / (Real.sqrt (np_dot v1 v1) * Real.sqrt (np_dot v2 v2))

/-! ### utils/retriever.py -/

/-- The `enumerate(embeddings)` similarity loop of `retrieve_context`
(retriever.py lines 24-27), with running index `i`. -/
noncomputable def simsAux {n : ℕ} (q : Fin n → ℝ) (i : ℕ) :
    List (Fin n → ℝ) → List (ℕ × ℝ)
  | [] => []
  | e :: es => (i, cosine_similarity q e) :: simsAux q (i + 1) es

/-- The full `similarities` list of `retrieve_context`. -/
noncomputable def similaritiesOf {n : ℕ} (q : Fin n → ℝ)
    (embs : List (Fin n → ℝ)) : List (ℕ × ℝ) :=
  simsAux q 0 embs

/-- `similarities.sort(key=lambda x: x[1], reverse=True)`: a stable sort,
descending on the score. -/
noncomputable def descBySimilarity (l : List (ℕ × ℝ)) : List (ℕ × ℝ) :=
  l.mergeSort (fun a b => decide (b.2 ≤ a.2))

/-- The `top_similarities` of `retrieve_context` (retriever.py lines 29-34):
sort descending, filter by the threshold, truncate to `top_k`. -/
noncomputable def topSimilarities {n : ℕ} (q : Fin n → ℝ)
    (embs : List (Fin n → ℝ)) (top_k : ℕ) (similarity_threshold : ℝ) :
    List (ℕ × ℝ) :=
  (((descBySimilarity (similaritiesOf q embs)).filter
    (fun p => decide (similarity_threshold ≤ p.2))).take top_k)

/-- `retrieve_context(query, documents, embeddings, top_k,
similarity_threshold)` of retriever.py lines 4-40.  The query embedder is an
external model passed as a parameter; `embeddings is None` is the `none`
case. -/
noncomputable def retrieve_context {n : ℕ}
    (embed_query : List Char → Fin n → ℝ) (query : List Char)
    (documents : List (List Char)) (embeddings : Option (List (Fin n → ℝ)))
    (top_k : ℕ) (similarity_threshold : ℝ) :
    List (List Char) × List ℕ :=
  match documents, embeddings with
  | [], _ => ([], [])
  | _, none => ([], [])
  | _ :: _, some embs =>
    ((topSimilarities (embed_query query) embs top_k similarity_threshold).map
      (fun p => documents.getD p.1 []),
     (topSimilarities (embed_query query) embs top_k similarity_threshold).map
      (fun p => p.1))

/-! ### Helper lemmas -/

theorem splitDotSpace_struct (l : List Char) :
    ∃ h t, splitDotSpace l = h :: t ∧ h <+: l ∧ ∀ s ∈ t, s <:+: l := by
  induction l using splitDotSpace.induct with
  | case1 => exact ⟨[], [], rfl, List.nil_prefix, by simp⟩
  | case2 rest ih =>
    obtain ⟨h, t, heq, hpre, htail⟩ := ih
    refine ⟨[], h :: t, by rw [splitDotSpace.eq_2, heq], List.nil_prefix, ?_⟩
    intro s hs
    rcases List.mem_cons.1 hs with rfl | hs
    · exact List.infix_cons (List.infix_cons hpre.isInfix)
    · exact List.infix_cons (List.infix_cons (htail s hs))
  | case3 c rest h1 hnil ih =>
    refine ⟨[c], [], ?_, ⟨rest, rfl⟩, by simp⟩
    rw [splitDotSpace.eq_3 c rest h1, hnil]
  | case4 c rest h1 s0 ss0 heq0 ih =>
    obtain ⟨h, t, heq, hpre, htail⟩ := ih
    rw [heq0] at heq
    obtain ⟨rfl, rfl⟩ := List.cons_eq_cons.1 heq
    refine ⟨c :: s0, ss0, ?_, ?_, ?_⟩
    · rw [splitDotSpace.eq_3 c rest h1, heq0]
    · obtain ⟨u, hu⟩ := hpre
      exact ⟨u, by rw [List.cons_append, hu]⟩
    · intro s hs
      exact List.infix_cons (htail s hs)

theorem mem_splitDotSpace_isInf {l s : List Char} (hs : s ∈ splitDotSpace l) :
    s <:+: l := by
  obtain ⟨h, t, heq, hpre, htail⟩ := splitDotSpace_struct l
  rw [heq] at hs
  rcases List.mem_cons.1 hs with rfl | hs
  · exact hpre.isInfix
  · exact htail s hs

theorem containsSub_iff (needle hay : List Char) :
    containsSub needle hay = true ↔ needle <:+: hay := by
  simp only [containsSub, List.any_eq_true, List.mem_tails,
    List.isPrefixOf_iff_prefix]
  rw [List.infix_iff_prefix_suffix]
  constructor
  · rintro ⟨t, ht, hp⟩
    exact ⟨t, hp, ht⟩
  · rintro ⟨t, hp, ht⟩
    exact ⟨t, ht, hp⟩

theorem kwAny_mono {keywords : List (List Char)} {s ctx : List Char}
    (hinf : s <:+: ctx) (h : kwAny keywords s = true) :
    kwAny keywords ctx = true := by
  simp only [kwAny, List.any_eq_true] at h ⊢
  obtain ⟨kw, hkw, hc⟩ := h
  refine ⟨kw, hkw, ?_⟩
  rw [containsSub_iff] at hc ⊢
  exact hc.trans (List.IsInfix.map Char.toLower hinf)

theorem keepSentence_skip {keywords : List (List Char)} {acc : List (List Char)}
    {s : List Char} (h : kwAny keywords s = false) :
    keepSentence keywords acc s = acc := by
  simp [keepSentence, h]

theorem foldl_keepSentence_skip {keywords : List (List Char)}
    (sentences : List (List Char))
    (hall : ∀ s ∈ sentences, kwAny keywords s = false) :
    ∀ acc, sentences.foldl (keepSentence keywords) acc = acc := by
  induction sentences with
  | nil => intro acc; rfl
  | cons s rest ih =>
    intro acc
    rw [List.foldl_cons, keepSentence_skip (hall s (by simp))]
    exact ih (fun x hx => hall x (by simp [hx])) acc

theorem collectRelevant_eq_spec (keywords : List (List Char)) :
    ∀ (contexts : List (List Char)) (acc : List (List Char)),
    collectRelevant keywords acc contexts =
      contexts.foldl
        (fun a context => (splitDotSpace context).foldl (keepSentence keywords) a)
        acc := by
  intro contexts
  induction contexts with
  | nil => intro acc; rfl
  | cons context rest ih =>
    intro acc
    rw [List.foldl_cons, collectRelevant]
    rcases hc : kwAny keywords context with _ | _
    · rw [if_neg (by simp [hc])]
      rw [foldl_keepSentence_skip (splitDotSpace context) ?hall acc]
      · exact ih acc
      · intro s hs
        rcases hk : kwAny keywords s with _ | _
        · rfl
        · exact absurd (kwAny_mono (mem_splitDotSpace_isInf hs) hk) (by simp [hc])
    · rw [if_pos (by simp [hc])]
      exact ih _

/-! ### Claim theorems -/

/-- C10: for every query, `generate_answer` with an empty context list
returns the fixed insufficient-information message; the body is a total
function, so no exception can escape. -/
theorem generate_answer_empty_contexts (query : List Char) :
    generate_answer query [] = insufficientMsg := by
  simp [generate_answer]

/-- C1 counterexample: for the unsupported extension `.txt`,
`process_document` does not surface an error — it returns the empty chunk
list (its return type is a plain chunk list, and the internal
`UnsupportedFormat` ValueError is swallowed by the catch-all handler), even
when every format processor would have succeeded. -/
theorem process_document_claim_counterexample :
    toLowerStr (splitext_ext ("report.txt".toList)) ∉
      [".pdf".toList, ".csv".toList, ".xlsx".toList, ".xls".toList] ∧
    process_document (fun _ => Except.ok ["x".toList])
      (fun _ => Except.ok ["x".toList]) (fun _ => Except.ok ["x".toList])
      ("report.txt".toList) = [] := by decide

/-- C1 (amended): for every file whose lowercased extension is none of
`.pdf`, `.csv`, `.xlsx`, `.xls`, the dispatch body of `process_document`
raises `UnsupportedFormat`, and the surrounding catch-all handler turns it
into the empty chunk list returned to the caller. -/
theorem process_document_unsupported_returns_nil
    (proc_pdf proc_csv proc_excel : List Char → Except PyError (List (List Char)))
    (file_path : List Char)
    (h : toLowerStr (splitext_ext file_path) ∉
      [".pdf".toList, ".csv".toList, ".xlsx".toList, ".xls".toList]) :
    process_document_body proc_pdf proc_csv proc_excel file_path =
      Except.error (PyError.unsupportedFormat (toLowerStr (splitext_ext file_path))) ∧
    process_document proc_pdf proc_csv proc_excel file_path = [] := by
  simp only [List.mem_cons, List.not_mem_nil, not_or, or_false] at h
  obtain ⟨h1, h2, h3, h4⟩ := h
  have hb : process_document_body proc_pdf proc_csv proc_excel file_path =
      Except.error (PyError.unsupportedFormat (toLowerStr (splitext_ext file_path))) := by
    unfold process_document_body
    rw [if_neg h1, if_neg h2, if_neg (not_or.2 ⟨h3, h4⟩)]
  exact ⟨hb, by simp [process_document, hb]⟩

/-- C1 witness: the amended theorem applied to the concrete path
`report.txt`. -/
theorem process_document_unsupported_witness :
    process_document_body (fun _ => Except.ok ["x".toList])
        (fun _ => Except.ok []) (fun _ => Except.ok [])
        ("report.txt".toList) =
      Except.error (PyError.unsupportedFormat
        (toLowerStr (splitext_ext ("report.txt".toList)))) ∧
    process_document (fun _ => Except.ok ["x".toList])
        (fun _ => Except.ok []) (fun _ => Except.ok [])
        ("report.txt".toList) = [] :=
  process_document_unsupported_returns_nil _ _ _ _ (by decide)

/-- C8 helper: for a positive group size, the row groups read off at the
`range(0, total_rows, m)` start indices concatenate back to exactly the
original row list. -/
theorem rowGroupStarts_flatten {α : Type} (m : ℕ) (rows : List α) :
    ((rowGroupStarts rows.length (m + 1)).map
      (fun i => (rows.drop i).take (m + 1))).flatten = rows := by
  rcases rows with _ | ⟨a, t⟩
  · have h0 : (0 + (m + 1) - 1) / (m + 1) = 0 :=
      Nat.div_eq_of_lt (by omega)
    simp [rowGroupStarts, h0]
  · have e1 : ((a :: t).length + (m + 1) - 1) / (m + 1) = t.length / (m + 1) + 1 := by
      have hx : (a :: t).length + (m + 1) - 1 = t.length + (m + 1) := by
        simp only [List.length_cons]; omega
      rw [hx, Nat.add_div_right _ (Nat.succ_pos m)]
    have e2 : (((a :: t).drop (m + 1)).length + (m + 1) - 1) / (m + 1) =
        t.length / (m + 1) := by
      rw [List.length_drop]
      simp only [List.length_cons]
      rcases le_or_lt m t.length with hc | hc
      · have hx : t.length + 1 - (m + 1) + (m + 1) - 1 = t.length := by omega
        rw [hx]
      · have hx : t.length + 1 - (m + 1) + (m + 1) - 1 = m := by omega
        rw [hx, Nat.div_eq_of_lt (by omega), Nat.div_eq_of_lt (by omega)]
    have ih := rowGroupStarts_flatten m ((a :: t).drop (m + 1))
    rw [rowGroupStarts, e2, List.map_map] at ih
    rw [rowGroupStarts, e1, List.range_succ_eq_map, List.map_cons, List.map_map,
      List.map_cons, List.map_map, List.flatten_cons, Nat.zero_mul, List.drop_zero]
    have hfun : ((fun i => ((a :: t).drop i).take (m + 1)) ∘
          ((fun j => j * (m + 1)) ∘ Nat.succ)) =
        ((fun i => (((a :: t).drop (m + 1)).drop i).take (m + 1)) ∘
          (fun j => j * (m + 1))) := by
      funext j
      simp only [Function.comp]
      rw [List.drop_drop]
      congr 2
      rw [Nat.succ_mul]
      omega
    rw [hfun, ih]
    exact List.take_append_drop _ _
termination_by rows.length
decreasing_by
  simp [List.length_drop]
  omega

/-- C8: for every dataframe and positive group size `m + 1`,
`dataframe_to_chunks` puts the schema-summary chunk first, followed by one
chunk per row group; the groups cover every original row exactly once, in
ascending row order, and no group holds more than `m + 1` rows. -/
theorem dataframe_to_chunks_partitions_rows (df : DataFrame) (m : ℕ)
    (sheet_name : Option (List Char)) :
    dataframe_to_chunks df (m + 1) sheet_name =
      schemaChunk df sheet_name ::
        (rowGroupStarts df.rows.length (m + 1)).map (rowChunk df (m + 1) sheet_name) ∧
    ((rowGroupStarts df.rows.length (m + 1)).map
      (fun i => (df.rows.drop i).take (m + 1))).flatten = df.rows ∧
    (rowGroupStarts df.rows.length (m + 1)).Forall
      (fun i => ((df.rows.drop i).take (m + 1)).length ≤ m + 1) := by
  refine ⟨rfl, rowGroupStarts_flatten m df.rows, ?_⟩
  rw [List.forall_iff_forall_mem]
  intro i _
  exact List.length_take_le _ _

/-- C3 counterexample: the sentence `alpha 1234` has length exactly 10 and
contains the query keyword, so under the claim (minimum length 10) it would
be kept and the answer would carry the `Based on ...` prefix; the code
requires length strictly greater than 10, keeps nothing, and falls back to
echoing the first context. -/
theorem generate_answer_min_length_counterexample :
    "alpha 1234".toList ∈ splitDotSpace ("alpha 1234. other".toList) ∧
    ("alpha 1234".toList).length = 10 ∧
    kwAny (keywordsOf ("alpha".toList)) ("alpha 1234".toList) = true ∧
    generate_answer ("alpha".toList) ["alpha 1234. other".toList] =
      foundMsg ++ "alpha 1234. other".toList ∧
    basedMsg.isPrefixOf
      (generate_answer ("alpha".toList) ["alpha 1234. other".toList]) = false := by
  decide

/-- C3 (amended, minimum sentence length strictly greater than 10): whenever
some sentence qualifies — it is obtained by splitting any context on `". "`,
contains a non-stopword query keyword, is no duplicate of an earlier kept
sentence, and is longer than 10 characters — `generate_answer` returns the
first at most 5 kept sentences in encountered order, each ending with a
period, joined by single spaces and prefixed with
`Based on the financial document, `. -/
theorem generate_answer_keeps_spec_sentences (query : List Char)
    (contexts : List (List Char))
    (hne : relevantSpec (keywordsOf query) contexts ≠ []) :
    generate_answer query contexts =
      basedMsg ++ List.intercalate [ ' ']
        (((relevantSpec (keywordsOf query) contexts).take 5).map cleanSentence) := by
  have hcoll : collectRelevant (keywordsOf query) [] contexts =
      relevantSpec (keywordsOf query) contexts :=
    collectRelevant_eq_spec (keywordsOf query) contexts []
  have hctx : contexts ≠ [] := by
    rintro rfl
    exact hne rfl
  unfold generate_answer
  rw [if_neg hctx, hcoll, if_neg hne]

/-- C3 witness: the amended theorem applied to the query `revenue` and one
concrete context. -/
theorem generate_answer_keeps_spec_sentences_witness :
    relevantSpec (keywordsOf ("revenue".toList))
        ["The revenue increased. Costs fell.".toList] ≠ [] ∧
    generate_answer ("revenue".toList)
        ["The revenue increased. Costs fell.".toList] =
      basedMsg ++ List.intercalate [ ' ']
        (((relevantSpec (keywordsOf ("revenue".toList))
            ["The revenue increased. Costs fell.".toList]).take 5).map
          cleanSentence) :=
  ⟨by decide, generate_answer_keeps_spec_sentences _ _ (by decide)⟩

/-! ### Lemmas for the prose chunking loop -/

theorem rfind2_some {text : List Char} {c1 c2 : Char} {start stop p : ℕ}
    (h : rfind2 text c1 c2 start stop = some p) :
    start ≤ p ∧ p + 2 ≤ stop ∧ text.getD p ' ' = c1 ∧
      text.getD (p + 1) ' ' = c2 := by
  have hm := List.max?_mem (fun a b => max_choice a b) h
  rw [List.mem_filter] at hm
  obtain ⟨-, hp⟩ := hm
  simp only [Bool.and_eq_true, decide_eq_true_eq, beq_iff_eq] at hp
  tauto

theorem optMax_some {a b : Option ℕ} {p : ℕ} (h : optMax a b = some p) :
    a = some p ∨ b = some p := by
  rcases a with _ | x
  · exact Or.inr (by simpa [optMax] using h)
  · rcases b with _ | y
    · exact Or.inl (by simpa [optMax] using h)
    · simp only [optMax, Option.some.injEq] at h
      rcases max_choice x y with hc | hc
      · exact Or.inl (by rw [← h, hc])
      · exact Or.inr (by rw [← h, hc])

theorem sentFallback_cases (text : List Char) (cs pos cend : ℕ)
    (hcl : cend ≤ text.length) :
    sentFallback text cs pos cend = cend ∨
    ∃ p, sentFallback text cs pos cend = p + 2 ∧ 2 * p > 2 * pos + cs ∧
      p + 2 ≤ cend ∧ isBreakAt text p := by
  rcases hm : optMax (optMax (rfind2 text '.' ' ' pos cend)
      (rfind2 text '?' ' ' pos cend)) (rfind2 text '!' ' ' pos cend) with _ | p
  · left
    unfold sentFallback
    rw [hm]
  · by_cases hgt : 2 * p > 2 * pos + cs
    · have hfacts : p + 2 ≤ cend ∧ isBreakAt text p := by
        rcases optMax_some hm with hm1 | hm2
        · rcases optMax_some hm1 with hd | hq
          · obtain ⟨-, hle, hc1, hc2⟩ := rfind2_some hd
            exact ⟨hle, Or.inr (Or.inl ⟨le_trans hle hcl, hc1, hc2⟩)⟩
          · obtain ⟨-, hle, hc1, hc2⟩ := rfind2_some hq
            exact ⟨hle, Or.inr (Or.inr (Or.inl ⟨le_trans hle hcl, hc1, hc2⟩))⟩
        · obtain ⟨-, hle, hc1, hc2⟩ := rfind2_some hm2
          exact ⟨hle, Or.inr (Or.inr (Or.inr ⟨le_trans hle hcl, hc1, hc2⟩))⟩
      refine Or.inr ⟨p, ?_, hgt, hfacts.1, hfacts.2⟩
      unfold sentFallback
      rw [hm]
      simp [hgt]
    · left
      unfold sentFallback
      rw [hm]
      simp [hgt]

theorem chunkEnd_cases (text : List Char) (cs pos : ℕ) :
    chunkEnd text cs pos = min (pos + cs) text.length ∨
    ∃ p, chunkEnd text cs pos = p + 2 ∧ 2 * p > 2 * pos + cs ∧
      p + 2 ≤ min (pos + cs) text.length ∧ isBreakAt text p := by
  unfold chunkEnd
  by_cases hmin : min (pos + cs) text.length < text.length
  · rw [if_pos hmin]
    rcases hr : rfind2 text '\n' '\n' pos (min (pos + cs) text.length) with _ | p
    · simp only [hr]
      exact sentFallback_cases text cs pos (min (pos + cs) text.length)
        (min_le_right _ _)
    · simp only [hr]
      by_cases hgt : 2 * p > 2 * pos + cs
      · rw [if_pos hgt]
        obtain ⟨-, hle, hc1, hc2⟩ := rfind2_some hr
        exact Or.inr ⟨p, rfl, hgt, hle,
          Or.inl ⟨le_trans hle (min_le_right _ _), hc1, hc2⟩⟩
      · rw [if_neg hgt]
        exact sentFallback_cases text cs pos (min (pos + cs) text.length)
          (min_le_right _ _)
  · rw [if_neg hmin]
    exact Or.inl rfl

theorem chunkEnd_le (text : List Char) (cs pos : ℕ) :
    chunkEnd text cs pos ≤ pos + cs := by
  rcases chunkEnd_cases text cs pos with h | ⟨p, hep, -, hle, -⟩
  · rw [h]
    exact min_le_left _ _
  · rw [hep]
    exact le_trans hle (min_le_left _ _)

theorem pyStrip_length_le (s : List Char) : (pyStrip s).length ≤ s.length := by
  unfold pyStrip
  calc ((s.dropWhile Char.isWhitespace).reverse.dropWhile
          Char.isWhitespace).reverse.length
      = ((s.dropWhile Char.isWhitespace).reverse.dropWhile
          Char.isWhitespace).length := List.length_reverse _
    _ ≤ (s.dropWhile Char.isWhitespace).reverse.length :=
        (List.dropWhile_sublist _).length_le
    _ = (s.dropWhile Char.isWhitespace).length := List.length_reverse _
    _ ≤ s.length := (List.dropWhile_sublist _).length_le

theorem process_pdf_chunks_len (text : List Char) (cs ov pos : ℕ) :
    (process_pdf_chunks text cs ov pos).Forall (fun c => c.length ≤ cs) := by
  rw [process_pdf_chunks]
  split
  · split
    · exact process_pdf_chunks_len text cs ov (nextPos cs ov pos)
    · refine (List.forall_cons _ _ _).2
        ⟨?_, process_pdf_chunks_len text cs ov (nextPos cs ov pos)⟩
      calc (pyStrip ((text.drop pos).take (chunkEnd text cs pos - pos))).length
          ≤ ((text.drop pos).take (chunkEnd text cs pos - pos)).length :=
            pyStrip_length_le _
        _ ≤ chunkEnd text cs pos - pos := List.length_take_le _ _
        _ ≤ cs := by
            have := chunkEnd_le text cs pos
            omega
  · trivial
termination_by text.length - pos
decreasing_by
  all_goals
    have hlt : pos < nextPos cs ov pos := by
      unfold nextPos
      omega
    omega

/-- C6: every chunk the prose sliding-window loop emits has length at most
`chunk_size` (the boundary-seeking slack is zero: even a boundary cut stays
inside the window), and the chunk end is a paragraph or sentence boundary
only when that boundary's position `p` satisfies
`p > start + chunk_size / 2` (rendered `2 * p > 2 * start + chunk_size`);
otherwise the chunk is cut at the exact window end
`min (start + chunk_size) (length text)`. -/
theorem process_pdf_chunk_size_bound (text : List Char)
    (chunk_size overlap current_pos : ℕ) :
    (process_pdf_chunks text chunk_size overlap current_pos).Forall
      (fun c => c.length ≤ chunk_size) ∧
    ∀ start : ℕ,
      chunkEnd text chunk_size start = min (start + chunk_size) text.length ∨
      ∃ p, chunkEnd text chunk_size start = p + 2 ∧
        2 * p > 2 * start + chunk_size ∧ isBreakAt text p := by
  refine ⟨process_pdf_chunks_len text chunk_size overlap current_pos, ?_⟩
  intro start
  rcases chunkEnd_cases text chunk_size start with h | ⟨p, hep, hgt, -, hbr⟩
  · exact Or.inl h
  · exact Or.inr ⟨p, hep, hgt, hbr⟩

/-- C7: the window advance is `max (chunk_size - overlap) 1`, hence the
start position strictly increases on every iteration, and the loop emits
nothing (terminates) once the start reaches the text length.  The loop is a
total function, which is the termination claim itself. -/
theorem process_pdf_window_progress (text : List Char)
    (chunk_size overlap current_pos : ℕ) :
    nextPos chunk_size overlap current_pos =
      current_pos + max (chunk_size - overlap) 1 ∧
    current_pos < nextPos chunk_size overlap current_pos ∧
    process_pdf_chunks text chunk_size overlap (text.length + current_pos) = [] := by
  refine ⟨by unfold nextPos; omega, by unfold nextPos; omega, ?_⟩
  rw [process_pdf_chunks]
  rw [dif_neg (by omega)]

/-! ### Lemmas for cosine similarity -/

theorem np_dot_comm {n : ℕ} (a b : Fin n → ℝ) : np_dot a b = np_dot b a := by
  unfold np_dot
  exact Finset.sum_congr rfl (fun _ _ => mul_comm _ _)

theorem np_dot_self_nonneg {n : ℕ} (a : Fin n → ℝ) : 0 ≤ np_dot a a :=
  Finset.sum_nonneg (fun i _ => mul_self_nonneg _)

theorem sqrt_np_dot_eq_zero {n : ℕ} (a : Fin n → ℝ)
    (h : Real.sqrt (np_dot a a) = 0) : ∀ i, a i = 0 := by
  have h0 : np_dot a a = 0 :=
    le_antisymm (Real.sqrt_eq_zero'.1 h) (np_dot_self_nonneg a)
  unfold np_dot at h0
  intro i
  have hz := (Finset.sum_eq_zero_iff_of_nonneg
    (fun j _ => mul_self_nonneg (a j))).1 h0 i (Finset.mem_univ i)
  exact mul_self_eq_zero.1 hz

theorem np_dot_self_pos {n : ℕ} (a : Fin n → ℝ) (ha : ¬ ∀ i, a i = 0) :
    0 < np_dot a a := by
  push_neg at ha
  obtain ⟨i, hi⟩ := ha
  unfold np_dot
  exact Finset.sum_pos' (fun j _ => mul_self_nonneg _)
    ⟨i, Finset.mem_univ i, mul_self_pos.2 hi⟩

theorem np_dot_sq_le {n : ℕ} (a b : Fin n → ℝ) :
    (np_dot a b) ^ 2 ≤ np_dot a a * np_dot b b := by
  have h := Finset.sum_mul_sq_le_sq_mul_sq Finset.univ a b
  unfold np_dot
  calc (∑ i, a i * b i) ^ 2
      ≤ (∑ i, a i ^ 2) * ∑ i, b i ^ 2 := h
    _ = (∑ i, a i * a i) * ∑ i, b i * b i := by
        simp_rw [pow_two]

/-- C4: cosine similarity is symmetric; for non-zero inputs it lies in
[-1, 1]; and it is exactly 0 when either vector is all-zero or has zero
norm. -/
theorem cosine_similarity_props {n : ℕ} (v1 v2 : Fin n → ℝ) :
    cosine_similarity v1 v2 = cosine_similarity v2 v1 ∧
    ((¬ ∀ i, v1 i = 0) → (¬ ∀ i, v2 i = 0) →
      -1 ≤ cosine_similarity v1 v2 ∧ cosine_similarity v1 v2 ≤ 1) ∧
    (((∀ i, v1 i = 0) ∨ (∀ i, v2 i = 0) ∨ Real.sqrt (np_dot v1 v1) = 0 ∨
        Real.sqrt (np_dot v2 v2) = 0) → cosine_similarity v1 v2 = 0) := by
  have hzero : ∀ (h : (∀ i, v1 i = 0) ∨ (∀ i, v2 i = 0)),
      cosine_similarity v1 v2 = 0 := by
    intro h
    unfold cosine_similarity
    rw [if_pos h]
  refine ⟨?_, ?_, ?_⟩
  · unfold cosine_similarity
    split_ifs <;> first
      | rfl
      | tauto
      | (rw [np_dot_comm v1 v2]; ring)
  · intro ha hb
    have hA := np_dot_self_pos v1 ha
    have hB := np_dot_self_pos v2 hb
    have hsA : 0 < Real.sqrt (np_dot v1 v1) := Real.sqrt_pos.2 hA
    have hsB : 0 < Real.sqrt (np_dot v2 v2) := Real.sqrt_pos.2 hB
    have hs : 0 < Real.sqrt (np_dot v1 v1) * Real.sqrt (np_dot v2 v2) :=
      mul_pos hsA hsB
    have hsq : (np_dot v1 v2) ^ 2 ≤
        (Real.sqrt (np_dot v1 v1) * Real.sqrt (np_dot v2 v2)) ^ 2 := by
      rw [mul_pow, Real.sq_sqrt (np_dot_self_nonneg v1),
        Real.sq_sqrt (np_dot_self_nonneg v2)]
      exact np_dot_sq_le v1 v2
    obtain ⟨hlo, hhi⟩ := abs_le_of_sq_le_sq' hsq (le_of_lt hs)
    have hcs : cosine_similarity v1 v2 =
        np_dot v1 v2 / (Real.sqrt (np_dot v1 v1) * Real.sqrt (np_dot v2 v2)) := by
      unfold cosine_similarity
      rw [if_neg (by tauto),
        if_neg (by push_neg; exact ⟨ne_of_gt hsA, ne_of_gt hsB⟩)]
    rw [hcs]
    constructor
    · rw [le_div_iff₀ hs]
      linarith
    · rw [div_le_one hs]
      exact hhi
  · intro h
    rcases h with h | h | h | h
    · exact hzero (Or.inl h)
    · exact hzero (Or.inr h)
    · exact hzero (Or.inl (sqrt_np_dot_eq_zero v1 h))
    · exact hzero (Or.inr (sqrt_np_dot_eq_zero v2 h))

/-- C4 witness: the bounds applied to the concrete non-zero vectors
`(1)` and `(1)` of dimension 1. -/
theorem cosine_similarity_props_witness :
    (¬ ∀ i : Fin 1, (fun _ : Fin 1 => (1 : ℝ)) i = 0) ∧
    (-1 ≤ cosine_similarity (fun _ : Fin 1 => (1 : ℝ)) (fun _ : Fin 1 => (1 : ℝ)) ∧
      cosine_similarity (fun _ : Fin 1 => (1 : ℝ)) (fun _ : Fin 1 => (1 : ℝ)) ≤ 1) :=
  ⟨by simp, (cosine_similarity_props _ _).2.1 (by simp) (by simp)⟩

/-! ### Lemmas for the retriever -/

theorem descLe_trans : ∀ (a b c : ℕ × ℝ),
    (fun a b : ℕ × ℝ => decide (b.2 ≤ a.2)) a b = true →
    (fun a b : ℕ × ℝ => decide (b.2 ≤ a.2)) b c = true →
    (fun a b : ℕ × ℝ => decide (b.2 ≤ a.2)) a c = true := by
  intro a b c
  simp only [decide_eq_true_eq]
  exact fun h1 h2 => le_trans h2 h1

theorem descLe_total : ∀ (a b : ℕ × ℝ),
    ((fun a b : ℕ × ℝ => decide (b.2 ≤ a.2)) a b ||
      (fun a b : ℕ × ℝ => decide (b.2 ≤ a.2)) b a) = true := by
  intro a b
  simp only [Bool.or_eq_true, decide_eq_true_eq]
  exact le_total b.2 a.2

theorem simsAux_fst_ge {n : ℕ} (q : Fin n → ℝ) :
    ∀ (es : List (Fin n → ℝ)) (i : ℕ) (p : ℕ × ℝ), p ∈ simsAux q i es → i ≤ p.1 := by
  intro es
  induction es with
  | nil => intro _ p hp; exact absurd hp (List.not_mem_nil p)
  | cons e es ih =>
    intro i p hp
    rcases List.mem_cons.1 hp with rfl | hp2
    · exact le_refl _
    · exact le_trans (Nat.le_succ i) (ih (i + 1) p hp2)

theorem simsAux_pairwise {n : ℕ} (q : Fin n → ℝ) :
    ∀ (es : List (Fin n → ℝ)) (i : ℕ),
    (simsAux q i es).Pairwise (fun a b => a.1 < b.1) := by
  intro es
  induction es with
  | nil => intro _; exact List.Pairwise.nil
  | cons e es ih =>
    intro i
    refine List.Pairwise.cons ?_ (ih (i + 1))
    intro p hp
    have := simsAux_fst_ge q es (i + 1) p hp
    show i < p.1
    omega

theorem pair_subl_of_mem {α : Type} {x y : α} :
    ∀ {l : List α}, x ∈ l → y ∈ l → x ≠ y → [x, y].Sublist l ∨ [y, x].Sublist l := by
  intro l
  induction l with
  | nil => intro hx; exact absurd hx (List.not_mem_nil x)
  | cons a t ih =>
    intro hx hy hne
    rcases List.mem_cons.1 hx with rfl | hx2
    · have hy2 : y ∈ t := by
        rcases List.mem_cons.1 hy with rfl | hy2
        · exact absurd rfl hne
        · exact hy2
      exact Or.inl (List.cons_sublist_cons.2 (List.singleton_sublist.2 hy2))
    · rcases List.mem_cons.1 hy with rfl | hy2
      · exact Or.inr (List.cons_sublist_cons.2 (List.singleton_sublist.2 hx2))
      · rcases ih hx2 hy2 hne with h | h
        · exact Or.inl (h.cons a)
        · exact Or.inr (h.cons a)

theorem two_sublist_antisymm {α : Type} {x y : α} :
    ∀ {l : List α}, l.Nodup → [x, y].Sublist l → [y, x].Sublist l → x = y := by
  intro l
  induction l with
  | nil =>
    intro _ h1
    exact absurd (h1.subset (by simp)) (List.not_mem_nil x)
  | cons a t ih =>
    intro hnd h1 h2
    obtain ⟨hna, hndt⟩ := List.nodup_cons.1 hnd
    cases h1 with
    | cons _ h1b =>
      cases h2 with
      | cons _ h2b => exact ih hndt h1b h2b
      | cons₂ _ h2b =>
        exact absurd (h1b.subset (by simp)) hna
    | cons₂ _ h1b =>
      cases h2 with
      | cons _ h2b =>
        exact absurd (h2b.subset (by simp)) hna
      | cons₂ _ h2b => rfl

theorem descBySimilarity_sorted (l : List (ℕ × ℝ)) :
    (descBySimilarity l).Pairwise (fun a b => b.2 ≤ a.2) := by
  unfold descBySimilarity
  exact (List.sorted_mergeSort descLe_trans descLe_total l).imp
    (fun hab => by simpa using hab)

theorem descBySimilarity_stable (l : List (ℕ × ℝ))
    (hl : l.Pairwise (fun a b => a.1 < b.1)) :
    (descBySimilarity l).Pairwise
      (fun a b => b.2 < a.2 ∨ (b.2 = a.2 ∧ a.1 < b.1)) := by
  have hperm : (descBySimilarity l).Perm l := List.mergeSort_perm l _
  have hndl : l.Nodup :=
    hl.imp (fun {a b} h => fun heq =>
      absurd (congrArg Prod.fst heq) (Nat.ne_of_lt h))
  have hnd : (descBySimilarity l).Nodup := hperm.symm.nodup hndl
  rw [List.pairwise_iff_forall_sublist]
  intro x y hxy
  have hle : y.2 ≤ x.2 :=
    List.pairwise_iff_forall_sublist.1 (descBySimilarity_sorted l) hxy
  rcases lt_or_eq_of_le hle with hlt | heq
  · exact Or.inl hlt
  · refine Or.inr ⟨heq, ?_⟩
    have hne : x ≠ y := by
      have h2 : [x, y].Nodup := List.Nodup.sublist hxy hnd
      intro hxe
      rw [hxe] at h2
      simp at h2
    have hx : x ∈ l := hperm.subset (hxy.subset (by simp))
    have hy : y ∈ l := hperm.subset (hxy.subset (by simp))
    rcases Nat.lt_or_ge x.1 y.1 with hlt1 | hge
    · exact hlt1
    · exfalso
      rcases pair_subl_of_mem hx hy hne with hs | hs
      · have := List.pairwise_iff_forall_sublist.1 hl hs
        omega
      · have hyx : [y, x].Sublist (descBySimilarity l) := by
          unfold descBySimilarity
          apply List.sublist_mergeSort descLe_trans descLe_total ?_ hs
          refine List.pairwise_cons.2 ⟨?_, by simp⟩
          intro b hb
          obtain rfl := List.mem_singleton.1 hb
          show decide (b.2 ≤ y.2) = true
          simp [heq]
        exact hne (two_sublist_antisymm hnd hxy hyx)

/-- C2: the retrieval result holds at most `top_k` pairs, every kept pair's
score clears the threshold, scores are in descending order, and pairs with
equal scores keep the original chunk-index order (stable ties); the lists
`retrieve_context` returns are therefore also no longer than `top_k`. -/
theorem retrieve_context_ranked {n : ℕ} (q : Fin n → ℝ)
    (embs : List (Fin n → ℝ)) (embed_query : List Char → Fin n → ℝ)
    (query : List Char) (documents : List (List Char))
    (embeddings : Option (List (Fin n → ℝ))) (top_k : ℕ)
    (similarity_threshold : ℝ) :
    (topSimilarities q embs top_k similarity_threshold).length ≤ top_k ∧
    List.Forall (fun p : ℕ × ℝ => similarity_threshold ≤ p.2)
      (topSimilarities q embs top_k similarity_threshold) ∧
    (topSimilarities q embs top_k similarity_threshold).Pairwise
      (fun a b => b.2 < a.2 ∨ (b.2 = a.2 ∧ a.1 < b.1)) ∧
    (retrieve_context embed_query query documents embeddings top_k
      similarity_threshold).1.length ≤ top_k ∧
    (retrieve_context embed_query query documents embeddings top_k
      similarity_threshold).2.length ≤ top_k := by
  have hlen : ∀ (q2 : Fin n → ℝ) (e2 : List (Fin n → ℝ)),
      (topSimilarities q2 e2 top_k similarity_threshold).length ≤ top_k :=
    fun q2 e2 => List.length_take_le _ _
  refine ⟨hlen q embs, ?_, ?_, ?_, ?_⟩
  · rw [List.forall_iff_forall_mem]
    intro p hp
    have hp2 : p ∈ (descBySimilarity (similaritiesOf q embs)).filter
        (fun p => decide (similarity_threshold ≤ p.2)) :=
      (List.take_sublist _ _).subset hp
    have := (List.mem_filter.1 hp2).2
    simpa using this
  · exact List.Pairwise.sublist
      ((List.take_sublist _ _).trans (List.filter_sublist _))
      (descBySimilarity_stable (similaritiesOf q embs) (simsAux_pairwise q embs 0))
  · rcases documents with _ | ⟨d, ds⟩
    · simp [retrieve_context]
    · rcases embeddings with _ | e2
      · simp [retrieve_context]
      · simpa [retrieve_context] using hlen (embed_query query) e2
  · rcases documents with _ | ⟨d, ds⟩
    · simp [retrieve_context]
    · rcases embeddings with _ | e2
      · simp [retrieve_context]
      · simpa [retrieve_context] using hlen (embed_query query) e2

/-- C5: for a fixed query, corpus and embeddings, raising the similarity
threshold never enlarges the retrieval result. -/
theorem retrieve_context_threshold_mono {n : ℕ}
    (embed_query : List Char → Fin n → ℝ) (query : List Char)
    (documents : List (List Char)) (embeddings : Option (List (Fin n → ℝ)))
    (q : Fin n → ℝ) (embs : List (Fin n → ℝ)) (top_k : ℕ) (t1 t2 : ℝ)
    (h : t1 ≤ t2) :
    (topSimilarities q embs top_k t2).length ≤
      (topSimilarities q embs top_k t1).length ∧
    (retrieve_context embed_query query documents embeddings top_k t2).1.length ≤
      (retrieve_context embed_query query documents embeddings top_k t1).1.length ∧
    (retrieve_context embed_query query documents embeddings top_k t2).2.length ≤
      (retrieve_context embed_query query documents embeddings top_k t1).2.length := by
  have key : ∀ (q2 : Fin n → ℝ) (e2 : List (Fin n → ℝ)),
      (topSimilarities q2 e2 top_k t2).length ≤
        (topSimilarities q2 e2 top_k t1).length := by
    intro q2 e2
    unfold topSimilarities
    have hsub : ((descBySimilarity (similaritiesOf q2 e2)).filter
        (fun p => decide (t2 ≤ p.2))).Sublist
      ((descBySimilarity (similaritiesOf q2 e2)).filter
        (fun p => decide (t1 ≤ p.2))) :=
      List.monotone_filter_right _ (fun p hp => by
        simp only [decide_eq_true_eq] at hp ⊢
        exact le_trans h hp)
    have hlen := hsub.length_le
    simp only [List.length_take]
    omega
  refine ⟨key q embs, ?_, ?_⟩
  · rcases documents with _ | ⟨d, ds⟩
    · simp [retrieve_context]
    · rcases embeddings with _ | e2
      · simp [retrieve_context]
      · simpa [retrieve_context] using key (embed_query query) e2
  · rcases documents with _ | ⟨d, ds⟩
    · simp [retrieve_context]
    · rcases embeddings with _ | e2
      · simp [retrieve_context]
      · simpa [retrieve_context] using key (embed_query query) e2

/-- C5 witness: the threshold monotonicity applied at the concrete
thresholds 0 and 1. -/
theorem retrieve_context_threshold_mono_witness :
    ((0 : ℝ) ≤ 1) ∧
    (topSimilarities (fun _ : Fin 1 => (1 : ℝ)) [fun _ => (1 : ℝ)] 3 1).length ≤
      (topSimilarities (fun _ : Fin 1 => (1 : ℝ)) [fun _ => (1 : ℝ)] 3 0).length :=
  ⟨by norm_num,
    (retrieve_context_threshold_mono (fun _ _ => (1 : ℝ)) [] [] none
      (fun _ : Fin 1 => (1 : ℝ)) [fun _ => (1 : ℝ)] 3 0 1 (by norm_num)).1⟩

/-- C9: retrieval returns the empty pair, without any error, when the
document list is empty or the embedding array is absent, and also when no
chunk's similarity score clears the threshold. -/
theorem retrieve_context_empty_cases {n : ℕ}
    (embed_query : List Char → Fin n → ℝ) (query : List Char)
    (documents : List (List Char)) (embeddings : Option (List (Fin n → ℝ)))
    (top_k : ℕ) (t : ℝ) :
    (documents = [] ∨ embeddings = none →
      retrieve_context embed_query query documents embeddings top_k t = ([], [])) ∧
    (∀ (q : Fin n → ℝ) (embs : List (Fin n → ℝ)),
      List.Forall (fun p : ℕ × ℝ => p.2 < t) (similaritiesOf q embs) →
      topSimilarities q embs top_k t = []) ∧
    (List.Forall (fun p : ℕ × ℝ => p.2 < t)
        (similaritiesOf (embed_query query) (embeddings.getD [])) →
      retrieve_context embed_query query documents embeddings top_k t = ([], [])) := by
  have hmid : ∀ (q : Fin n → ℝ) (embs : List (Fin n → ℝ)),
      List.Forall (fun p : ℕ × ℝ => p.2 < t) (similaritiesOf q embs) →
      topSimilarities q embs top_k t = [] := by
    intro q embs hall
    unfold topSimilarities
    have hf : (descBySimilarity (similaritiesOf q embs)).filter
        (fun p => decide (t ≤ p.2)) = [] := by
      rw [List.filter_eq_nil_iff]
      intro p hp
      unfold descBySimilarity at hp
      have hpl : p ∈ similaritiesOf q embs :=
        (List.mergeSort_perm _ _).subset hp
      have hlt := (List.forall_iff_forall_mem.1 hall) p hpl
      simp only [decide_eq_true_eq]
      exact not_le.2 hlt
    rw [hf, List.take_nil]
  refine ⟨?_, hmid, ?_⟩
  · intro hcase
    rcases documents with _ | ⟨d, ds⟩
    · rcases embeddings with _ | e2 <;> simp [retrieve_context]
    · rcases embeddings with _ | e2
      · simp [retrieve_context]
      · rcases hcase with hcase | hcase
        · exact absurd hcase (by simp)
        · exact absurd hcase (by simp)
  · intro hall
    rcases documents with _ | ⟨d, ds⟩
    · rcases embeddings with _ | e2 <;> simp [retrieve_context]
    · rcases embeddings with _ | e2
      · simp [retrieve_context]
      · have hz := hmid (embed_query query) e2 (by simpa using hall)
        simp [retrieve_context, hz]

/-- C9 witness: the empty-corpus case applied at a concrete query with the
default threshold 0.2. -/
theorem retrieve_context_empty_cases_witness :
    retrieve_context (fun _ (_ : Fin 1) => (0 : ℝ)) [] [] none 3 (1 / 5 : ℝ) =
      ([], []) :=
  (retrieve_context_empty_cases (fun _ (_ : Fin 1) => (0 : ℝ)) [] [] none 3
    (1 / 5 : ℝ)).1 (Or.inl rfl)
